import Mathlib

/-!
Verification of the laminate-finder chatbot core (hex-color parsing,
catalog ranking, pagination, conversation turn) against its source.

Modelling conventions, used throughout:

* Python machine integers are `Int`/`Nat`; no overflow is possible in the
  quantities involved.
* `color_distance` in the source returns the float `sqrt` of an integer sum
  of squares.  We represent every distance by that integer sum of squares
  (`color_distance_sq`).  On the values reachable here (sums of three squares
  of differences of parsed byte-or-small values) the map `x ↦ sqrt x` computed
  in IEEE doubles is strictly monotone, so equality, ordering, minimisation and
  sorting claims transfer verbatim between the two representations.
* A Python expression that raises an exception is modelled by `none` of an
  `Option` result; `try/except` is modelled by matching on that `Option`.
* Python's `int(s, 16)` is modelled on the inputs arising here (two-or-fewer
  character slices of color strings): an optional single leading sign followed
  by a nonempty run of hex digits.  The surrounding whitespace, `0x` prefixes
  and underscore digit separators that Python additionally tolerates never
  occur in color data and are not modelled.
* Python dicts keyed by strings are association lists with first-match lookup
  and in-place first-occurrence update (`setKey`), which agrees with dict
  semantics on the duplicate-free states the program constructs.
-/

namespace LaminateBot

/-- Is `c` an ASCII hexadecimal digit (0-9, a-f, A-F)? -/
def isHexDigitChar (c : Char) : Bool :=
  (48 ≤ c.toNat && c.toNat ≤ 57) || (97 ≤ c.toNat && c.toNat ≤ 102) ||
    (65 ≤ c.toNat && c.toNat ≤ 70)

/-- Numeric value of a hex digit (unspecified junk on non-digits). -/
def hexDigitVal (c : Char) : Nat :=
  if 48 ≤ c.toNat && c.toNat ≤ 57 then c.toNat - 48
  else if 65 ≤ c.toNat && c.toNat ≤ 70 then c.toNat - 55
  else c.toNat - 87

/-- Accumulating base-16 evaluation of a digit run; `none` on a non-digit. -/
def hexDigitsValAux (acc : Nat) : List Char → Option Nat
  | [] => some acc
  | c :: rest =>
    if isHexDigitChar c then hexDigitsValAux (16 * acc + hexDigitVal c) rest
    else none

/-- Value of a nonempty run of hex digits; `none` if empty or any char is not
a hex digit. -/
def hexDigitsVal : List Char → Option Nat
  | [] => none
  | l => hexDigitsValAux 0 l

/-- Python's `int(s, 16)` restricted as described in the file header: an
optional single leading sign followed by a nonempty hex-digit run; `none`
models the `ValueError` Python raises otherwise. -/
def pyIntHex : List Char → Option Int
  | [] => none
  | c :: rest =>
    if c == '+' then (hexDigitsVal rest).map Int.ofNat
    else if c == '-' then (hexDigitsVal rest).map (fun n => -(Int.ofNat n : Int))
    else (hexDigitsVal (c :: rest)).map Int.ofNat

/-- An RGB triple as produced by `hex_to_rgb` (components are Python ints). -/
abbrev RGB := Int × Int × Int

/-- Source `hex_to_rgb` (Client.py:18-20, FinalServer.py:111-113):
`hexcode.lstrip("#")` then `int(hexcode[i:i+2], 16) for i in (0, 2, 4)`.
`none` models the `ValueError` raised when a slice fails to parse. -/
def hex_to_rgb (hexcode : String) : Option RGB :=
  let t := hexcode.toList.dropWhile (fun c => c == '#')
  match pyIntHex (t.take 2), pyIntHex ((t.drop 2).take 2),
      pyIntHex ((t.drop 4).take 2) with
  | some r, some g, some b => some (r, g, b)
  | _, _, _ => none

/-- Square of the source's `color_distance` (Client.py:22-23):
the source returns `(Σ (a-b)^2) ** 0.5`; we keep the radicand. -/
def color_distance_sq (rgb1 rgb2 : RGB) : Int :=
  (rgb1.1 - rgb2.1) ^ 2 + (rgb1.2.1 - rgb2.2.1) ^ 2 + (rgb1.2.2 - rgb2.2.2) ^ 2

/-- A catalog entry as consumed by `find_all_laminates_sorted`.
`hexcode = none` models a JSON record whose `hexcode` field is absent or not
a list (both are skipped by the same guard in the source); `some l` models a
list field with elements `l`. -/
structure Texture where
  id : String
  name : String
  sku : String
  hexcode : Option (List String)
deriving DecidableEq

/-- A ranked result record as built at Client.py:48-53.  `distance` holds the
squared distance (see file header). -/
structure RankedEntry where
  name : String
  sku : String
  link : String
  distance : Int
deriving DecidableEq

/-- The product link built at Client.py:51. -/
def linkOf (id : String) : String :=
  "https://dummynavigator.centuryply.com/product-details/" ++ id

/-- Python `h.startswith("#")`. -/
def startsWithHash (h : String) : Bool :=
  match h.toList with
  | [] => false
  | c :: _ => c == '#'

/-- The comprehension at Client.py:37:
`[color_distance(input_rgb, hex_to_rgb(h)) for h in tex_hex_list if h.startswith("#")]`.
A parse failure inside the comprehension raises, aborting the whole list;
hence the `Option`: `none` models that exception (caught by the `except` at
Client.py:41). -/
def distancesOf (input_rgb : RGB) : List String → Option (List Int)
  | [] => some []
  | h :: t =>
    if startsWithHash h then
      match hex_to_rgb h with
      | none => none
      | some c =>
        match distancesOf input_rgb t with
        | none => none
        | some ds => some (color_distance_sq input_rgb c :: ds)
    else distancesOf input_rgb t

/-- Python `min` over the nonempty list `d :: ds`. -/
def listMin (d : Int) (ds : List Int) : Int :=
  ds.foldl min d

/-- Processing of one catalog entry by the loop body at Client.py:31-54,
up to (but not including) the seen-name check: `none` when the entry is
skipped (`hexcode` absent/not a list/empty, no `#`-code, or a `#`-code failed
to parse and the exception dropped the entry), otherwise the `RankedEntry`
that would be appended. -/
def entryRanked (input_rgb : RGB) (texture : Texture) : Option RankedEntry :=
  match texture.hexcode with
  | none => none
  | some [] => none
  | some hexes =>
    match distancesOf input_rgb hexes with
    | none => none
    | some [] => none
    | some (d :: ds) =>
      some ⟨texture.name, texture.sku, linkOf texture.id, listMin d ds⟩

/-- The accumulation loop of `find_all_laminates_sorted` (Client.py:31-54),
threading the `seen_names` set. -/
def rankedLoop (input_rgb : RGB) : List Texture → List String → List RankedEntry
  | [], _ => []
  | texture :: rest, seen =>
    match entryRanked input_rgb texture with
    | none => rankedLoop input_rgb rest seen
    | some e =>
      if texture.name ∈ seen then rankedLoop input_rgb rest seen
      else e :: rankedLoop input_rgb rest (texture.name :: seen)

/-- First-occurrence-wins deduplication by `name`, relative to an initial set
of already-seen names: the seen-name filtering that `rankedLoop` performs,
isolated from the per-entry scoring (`rankedLoop_eq_dedupSeen` below). -/
def dedupSeen (seen : List String) : List RankedEntry → List RankedEntry
  | [] => []
  | e :: t =>
    if e.name ∈ seen then dedupSeen seen t
    else e :: dedupSeen (e.name :: seen) t

/-- The comparison `ranked.sort(key=lambda x: x["distance"])` sorts by. -/
def rankRel (a b : RankedEntry) : Prop :=
  a.distance ≤ b.distance

instance : DecidableRel rankRel :=
  fun a b => Int.decLe a.distance b.distance

instance : IsTotal RankedEntry rankRel :=
  ⟨fun a b => Int.le_total a.distance b.distance⟩

instance : IsTrans RankedEntry rankRel :=
  ⟨fun _ _ _ hab hbc => le_trans hab hbc⟩

/-- Source `find_all_laminates_sorted` (Client.py:25-57, FinalServer.py:120-152).
`none` models the exception propagating out of `hex_to_rgb(input_hexcode)` at
Client.py:27 when the target itself does not parse.  Python's `list.sort` is
the stable ascending sort by the key; a stable sort by a total preorder is
unique as a function, and `List.insertionSort` with `rankRel` is that stable
sort (`sublist_insertionSort` below), so it agrees pointwise with the
source's Timsort. -/
def find_all_laminates_sorted (input_hexcode : String) (laminate_data : List Texture) :
    Option (List RankedEntry) :=
  match hex_to_rgb input_hexcode with
  | none => none
  | some input_rgb =>
    some (List.insertionSort rankRel (rankedLoop input_rgb laminate_data []))

/-- One value of the session dict `st.session_state["shown_laminates"]`
(Client.py:67): `{"index": ..., "sorted": ...}`. -/
structure PageData where
  index : Nat
  sorted : List RankedEntry
deriving DecidableEq

/-- The `shown_laminates` dict: insertion-ordered association list. -/
abbrev Shown := List (String × PageData)

/-- Dict lookup (first match). -/
def lookupKey (k : String) : Shown → Option PageData
  | [] => none
  | (k', v) :: rest => if k' == k then some v else lookupKey k rest

/-- Dict store: replace the first binding of `k` in place, else append —
exactly Python dict assignment on insertion-ordered dicts. -/
def setKey (k : String) (v : PageData) : Shown → Shown
  | [] => [(k, v)]
  | (k', v') :: rest =>
    if k' == k then (k, v) :: rest else (k', v') :: setKey k v rest

/-- Source `get_next_batch` (Client.py:59-73, FinalServer.py:155-169) as a
state-passing function on the `shown_laminates` dict.  `none` models the
exception raised by `find_all_laminates_sorted` when a fresh, unparseable key
is ranked (the dict assignment then never happens). -/
def get_next_batch (hexcode : String) (laminate_data : List Texture)
    (batch_size : Nat) (shown : Shown) : Option (Shown × List RankedEntry) :=
  match lookupKey hexcode shown with
  | some data =>
    some (setKey hexcode ⟨data.index + batch_size, data.sorted⟩ shown,
      (data.sorted.drop data.index).take batch_size)
  | none =>
    match find_all_laminates_sorted hexcode laminate_data with
    | none => none
    | some sorted_laminates =>
      some (setKey hexcode ⟨batch_size, sorted_laminates⟩ shown,
        sorted_laminates.take batch_size)

/-- Iterate `get_next_batch` from a state, collecting the returned batches in
order; `none` as soon as one call raises. -/
def iterBatches (hexcode : String) (laminate_data : List Texture)
    (batch_size : Nat) (shown : Shown) : Nat → Option (Shown × List (List RankedEntry))
  | 0 => some (shown, [])
  | n + 1 =>
    match iterBatches hexcode laminate_data batch_size shown n with
    | none => none
    | some (s, bs) =>
      match get_next_batch hexcode laminate_data batch_size s with
      | none => none
      | some (s', b) => some (s', bs ++ [b])

/-- Session state touched by `modified_laminate_agent`: `chat_history`
(entries tagged `true` for `HumanMessage`), `last_hexcode`
(`None` ↦ `none`), and the `shown_laminates` dict. -/
structure TurnState where
  chat_history : List (Bool × String)
  last_hexcode : Option String
  shown_laminates : Shown
deriving DecidableEq

/-- Outcome of the agent collaborator as observed by Client.py:129-135:
`crash` = `agent.ainvoke` (or anything before `json.loads`) raised, or
`json.loads` returned a non-dict (both land in an `except` with no state
change); `notJson` = `json.loads` raised `JSONDecodeError`; `jsonObj hc d` =
a parsed dict whose `.get("hexcode")` is `hc` and `.get("description")` is
`d` (absent fields ↦ `none`; an empty-string hexcode ↦ `some ""`). -/
inductive AgentReply where
  | crash
  | notJson
  | jsonObj (hexcode : Option String) (description : Option String)
deriving DecidableEq

/-- Python `pat in s.lower()` for a pattern that is already lowercase:
contiguous-substring test after ASCII lowercasing. -/
def hasSubstring (pat : List Char) : List Char → Bool
  | [] => pat.isEmpty
  | c :: t => pat.isPrefixOf (c :: t) || hasSubstring pat t

/-- Python `sub in s.lower()` (prompts here are ASCII, where `Char.toLower`
agrees with `str.lower`). -/
def lowerContains (s : String) (sub : String) : Bool :=
  hasSubstring sub.toList (s.toList.map Char.toLower)

/-- Source `modified_laminate_agent` (Client.py:84-181), one conversation
turn.  Inputs beyond the prompt stand for the collaborators: `catalog` is the
parsed `laminates.json` (`none` = `open`/`json.load` raised, landing in the
outer `except` of Client.py:180); `reply` is the agent outcome (consulted only
on the resolution branch).  Returns the new session state and `some batch` on
success, `none` when the turn failed (`return None` paths and the outer
`except`).  UI rendering (st.error/st.write/st.markdown) has no session
effect and is not modelled. -/
def modified_laminate_agent (user_prompt : String) (catalog : Option (List Texture))
    (reply : AgentReply) (st : TurnState) : TurnState × Option (List RankedEntry) :=
  match catalog with
  | none => (st, none)
  | some laminate_data =>
    let ask_more := lowerContains user_prompt "other option" ||
      lowerContains user_prompt "more"
    let lastTruthy : Bool := match st.last_hexcode with
      | some h => h != ""
      | none => false
    if ask_more && lastTruthy then
      match st.last_hexcode with
      | none => (st, none)
      | some h =>
        let response_text := "Showing more options for color " ++ h ++ "."
        match get_next_batch h laminate_data 4 st.shown_laminates with
        | none => (st, none)
        | some (shown', batch) =>
          ({ chat_history :=
               st.chat_history ++ [(true, user_prompt), (false, response_text)],
             last_hexcode := st.last_hexcode,
             shown_laminates := shown' },
           some batch)
    else
      match reply with
      | .crash => (st, none)
      | .notJson => (st, none)
      | .jsonObj hc desc =>
        let response_text := desc.getD "Found matching color."
        let st1 : TurnState := { st with last_hexcode := hc }
        match hc with
        | none => (st1, none)
        | some h =>
          match find_all_laminates_sorted h laminate_data with
          | none => (st1, none)
          | some l =>
            let st2 : TurnState :=
              { st1 with shown_laminates := setKey h ⟨0, l⟩ st1.shown_laminates }
            match get_next_batch h laminate_data 4 st2.shown_laminates with
            | none => (st2, none)
            | some (shown', batch) =>
              ({ chat_history :=
                   st2.chat_history ++ [(true, user_prompt), (false, response_text)],
                 last_hexcode := st2.last_hexcode,
                 shown_laminates := shown' },
               some batch)

/-! ## Hex-parsing lemmas -/

lemma isHexDigitChar_ne_plus {c : Char} (h : isHexDigitChar c = true) :
    (c == '+') = false := by
  cases hb : c == '+' with
  | false => rfl
  | true =>
    have hc : c = '+' := eq_of_beq hb
    subst hc
    exact absurd h (by decide)

lemma isHexDigitChar_ne_minus {c : Char} (h : isHexDigitChar c = true) :
    (c == '-') = false := by
  cases hb : c == '-' with
  | false => rfl
  | true =>
    have hc : c = '-' := eq_of_beq hb
    subst hc
    exact absurd h (by decide)

lemma hexDigitsValAux_isSome (l : List Char) (hall : ∀ c ∈ l, isHexDigitChar c = true) :
    ∀ acc, (hexDigitsValAux acc l).isSome := by
  induction l with
  | nil => intro acc; rfl
  | cons c t ih =>
    intro acc
    have hc := hall c (by simp)
    rw [hexDigitsValAux, hc]
    exact ih (fun x hx => hall x (by simp [hx])) _

lemma pyIntHex_isSome_of_digits (l : List Char) (hne : l ≠ [])
    (hall : ∀ c ∈ l, isHexDigitChar c = true) : (pyIntHex l).isSome := by
  match l, hne with
  | c :: rest, _ =>
    have hc := hall c (by simp)
    obtain ⟨n, hn⟩ := Option.isSome_iff_exists.mp (hexDigitsValAux_isSome (c :: rest) hall 0)
    have he : hexDigitsVal (c :: rest) = some n := hn
    rw [pyIntHex, isHexDigitChar_ne_plus hc, isHexDigitChar_ne_minus hc]
    simp only [Bool.false_eq_true, if_false, he, Option.map_some']
    rfl

/-! ## Ranking lemmas -/

lemma distancesOf_eq_none_iff (rgb : RGB) (hexes : List String) :
    distancesOf rgb hexes = none ↔
      ∃ h ∈ hexes, startsWithHash h = true ∧ hex_to_rgb h = none := by
  induction hexes with
  | nil => simp [distancesOf]
  | cons h t ih =>
    by_cases hs : startsWithHash h = true
    · cases hp : hex_to_rgb h with
      | none =>
        simp only [distancesOf, hs, if_true, hp]
        constructor
        · intro _; exact ⟨h, by simp, hs, hp⟩
        · intro _; trivial
      | some c =>
        simp only [distancesOf, hs, if_true, hp]
        cases hd : distancesOf rgb t with
        | none =>
          simp only [true_iff]
          obtain ⟨x, hx, hsx, hpx⟩ := ih.mp hd
          exact ⟨x, by simp [hx], hsx, hpx⟩
        | some ds =>
          simp only [reduceCtorEq, false_iff]
          intro hcon
          obtain ⟨x, hx, hsx, hpx⟩ := hcon
          rcases List.mem_cons.mp hx with hxh | hxt
          · subst hxh; rw [hp] at hpx; exact absurd hpx (by simp)
          · exact absurd (ih.mpr ⟨x, hxt, hsx, hpx⟩) (by simp [hd])
    · have hs' : startsWithHash h = false := by
        cases hv : startsWithHash h
        · rfl
        · exact absurd hv hs
      simp only [distancesOf, hs', Bool.false_eq_true, if_false]
      rw [ih]
      constructor
      · intro ⟨x, hx, hsx, hpx⟩; exact ⟨x, by simp [hx], hsx, hpx⟩
      · intro ⟨x, hx, hsx, hpx⟩
        rcases List.mem_cons.mp hx with hxh | hxt
        · subst hxh; rw [hs'] at hsx; exact absurd hsx (by simp)
        · exact ⟨x, hxt, hsx, hpx⟩

lemma distancesOf_some_spec (rgb : RGB) :
    ∀ (hexes : List String) (ds : List Int), distancesOf rgb hexes = some ds →
      (∀ h ∈ hexes, startsWithHash h = true →
        ∃ c, hex_to_rgb h = some c ∧ color_distance_sq rgb c ∈ ds) ∧
      (∀ x ∈ ds, ∃ h ∈ hexes, startsWithHash h = true ∧
        ∃ c, hex_to_rgb h = some c ∧ x = color_distance_sq rgb c) := by
  intro hexes
  induction hexes with
  | nil =>
    intro ds hd
    simp only [distancesOf, Option.some.injEq] at hd
    subst hd
    exact ⟨by simp, by simp⟩
  | cons h t ih =>
    intro ds hd
    by_cases hs : startsWithHash h = true
    · rw [distancesOf, if_pos hs] at hd
      cases hp : hex_to_rgb h with
      | none => rw [hp] at hd; exact absurd hd (by simp)
      | some c =>
        rw [hp] at hd
        cases hdt : distancesOf rgb t with
        | none => rw [hdt] at hd; exact absurd hd (by simp)
        | some ds' =>
          rw [hdt] at hd
          simp only [Option.some.injEq] at hd
          subst hd
          obtain ⟨ih1, ih2⟩ := ih ds' hdt
          constructor
          · intro x hx hsx
            rcases List.mem_cons.mp hx with hxh | hxt
            · subst hxh; exact ⟨c, hp, by simp⟩
            · obtain ⟨c', hc', hmem⟩ := ih1 x hxt hsx
              exact ⟨c', hc', by simp [hmem]⟩
          · intro x hx
            rcases List.mem_cons.mp hx with hxh | hxt
            · subst hxh; exact ⟨h, by simp, hs, c, hp, rfl⟩
            · obtain ⟨y, hy, hsy, c', hc', hx'⟩ := ih2 x hxt
              exact ⟨y, by simp [hy], hsy, c', hc', hx'⟩
    · have hs' : startsWithHash h = false := by
        cases hv : startsWithHash h
        · rfl
        · exact absurd hv hs
      rw [distancesOf, hs'] at hd
      simp only [Bool.false_eq_true, if_false] at hd
      obtain ⟨ih1, ih2⟩ := ih ds hd
      constructor
      · intro x hx hsx
        rcases List.mem_cons.mp hx with hxh | hxt
        · subst hxh; rw [hs'] at hsx; exact absurd hsx (by simp)
        · exact ih1 x hxt hsx
      · intro x hx
        obtain ⟨y, hy, hsy, c', hc', hx'⟩ := ih2 x hx
        exact ⟨y, by simp [hy], hsy, c', hc', hx'⟩

lemma rankedLoop_append_drop (rgb : RGB) (tx : Texture)
    (hnone : entryRanked rgb tx = none) :
    ∀ (c1 c2 : List Texture) (seen : List String),
      rankedLoop rgb (c1 ++ tx :: c2) seen = rankedLoop rgb (c1 ++ c2) seen := by
  intro c1
  induction c1 with
  | nil =>
    intro c2 seen
    simp only [List.nil_append, rankedLoop, hnone]
  | cons y ys ih =>
    intro c2 seen
    simp only [List.cons_append, rankedLoop]
    cases hy : entryRanked rgb y with
    | none => exact ih c2 seen
    | some e =>
      by_cases hseen : y.name ∈ seen
      · simp only [if_pos hseen]; exact ih c2 seen
      · simp only [if_neg hseen]
        exact congrArg (fun l => e :: l) (ih c2 (y.name :: seen))

/-- C1, counterexample.  The catalog entry has two codes beginning with `#`;
the first (`"#000000"`) parses, yet the entry is dropped from the ranking
because the second (`"#GG0000"`) does not — refuting the claim that a failing
code is skipped individually and that an entry is skipped only when no code
of it parses. -/
theorem c1_counterexample :
    hex_to_rgb "#000000" = some (0, 0, 0) ∧
    find_all_laminates_sorted "#000000"
      [⟨"1", "A", "S", some ["#000000", "#GG0000"]⟩] = some [] := by
  exact ⟨rfl, rfl⟩

/-- C1 (amended): in `find_all_laminates_sorted` a `#`-prefixed hex code that
fails to parse makes the exception abort the whole entry, so the entry is
dropped from the ranking entirely (removing it from the catalog does not
change the result), even when other codes of the entry parse; an entry is
ranked only when it has at least one `#`-prefixed code and every one of its
`#`-prefixed codes parses. -/
theorem c1_bad_code_drops_whole_entry (t : String) (rgb : RGB)
    (c1 c2 : List Texture) (tx : Texture) (hexes : List String)
    (ht : hex_to_rgb t = some rgb) (hh : tx.hexcode = some hexes) :
    ((∃ h ∈ hexes, startsWithHash h = true ∧ hex_to_rgb h = none) →
      find_all_laminates_sorted t (c1 ++ tx :: c2) =
        find_all_laminates_sorted t (c1 ++ c2)) ∧
    (((∃ h ∈ hexes, startsWithHash h = true) ∧
        (∀ h ∈ hexes, startsWithHash h = true → (hex_to_rgb h).isSome)) →
      (entryRanked rgb tx).isSome) := by
  constructor
  · intro hbad
    have hnone : entryRanked rgb tx = none := by
      cases hexes with
      | nil =>
        obtain ⟨h, hmem, _, _⟩ := hbad
        exact absurd hmem (by simp)
      | cons h0 t0 =>
        have hd : distancesOf rgb (h0 :: t0) = none :=
          (distancesOf_eq_none_iff rgb (h0 :: t0)).mpr hbad
        simp only [entryRanked, hh, hd]
    simp only [find_all_laminates_sorted, ht,
      rankedLoop_append_drop rgb tx hnone c1 c2 []]
  · intro ⟨⟨h, hmem, hsh⟩, hall⟩
    have hne : distancesOf rgb hexes ≠ none := by
      intro hcon
      obtain ⟨x, hx, hsx, hpx⟩ := (distancesOf_eq_none_iff rgb hexes).mp hcon
      have hps := hall x hx hsx
      rw [hpx] at hps
      exact absurd hps (by simp)
    cases hd : distancesOf rgb hexes with
    | none => exact absurd hd hne
    | some ds =>
      have hds : ds ≠ [] := by
        obtain ⟨c, _, hmemd⟩ := (distancesOf_some_spec rgb hexes ds hd).1 h hmem hsh
        intro hnil
        rw [hnil] at hmemd
        exact absurd hmemd (by simp)
      cases hexes with
      | nil => exact absurd hmem (by simp)
      | cons h0 t0 =>
        cases ds with
        | nil => exact absurd rfl hds
        | cons d ds' => simp only [entryRanked, hh, hd, Option.isSome_some]

/-- C1, witness for the amended theorem at a concrete input: the bad-code
entry named B vanishes (equal rankings with and without it), and a clean
entry is rankable. -/
theorem c1_witness :
    (find_all_laminates_sorted "#000000"
        ([⟨"1", "A", "S", some ["#101010"]⟩] ++
          ⟨"2", "B", "S", some ["#000000", "#GG0000"]⟩ ::
          [⟨"3", "C", "S", some ["#202020"]⟩]) =
      find_all_laminates_sorted "#000000"
        ([⟨"1", "A", "S", some ["#101010"]⟩] ++ [⟨"3", "C", "S", some ["#202020"]⟩])) ∧
    (entryRanked (0, 0, 0) ⟨"1", "A", "S", some ["#101010"]⟩).isSome := by
  have h2 := c1_bad_code_drops_whole_entry "#000000" (0, 0, 0)
    [⟨"1", "A", "S", some ["#101010"]⟩] [⟨"3", "C", "S", some ["#202020"]⟩]
    ⟨"2", "B", "S", some ["#000000", "#GG0000"]⟩ ["#000000", "#GG0000"] rfl rfl
  have h3 := c1_bad_code_drops_whole_entry "#000000" (0, 0, 0) [] []
    ⟨"1", "A", "S", some ["#101010"]⟩ ["#101010"] rfl rfl
  constructor
  · exact h2.1 ⟨"#GG0000", by simp, by decide, by decide⟩
  · exact h3.2 ⟨⟨"#101010", by simp, by decide⟩, by decide⟩

/-- C3, counterexample.  After removal of the `#` prefix these codes have
seven and five hex digits respectively — not exactly six — yet `hex_to_rgb`
parses both successfully (the seventh digit is ignored; the five-digit code
reads a one-digit blue component), refuting the claim that every such input
fails. -/
theorem c3_counterexample :
    hex_to_rgb "#1234567" = some (18, 52, 86) ∧
    hex_to_rgb "#12345" = some (18, 52, 5) := by
  exact ⟨rfl, rfl⟩

/-- C3 (amended): `hex_to_rgb` strips all leading `#` characters and parses
the character pairs at positions 0-1, 2-3, 4-5 of the remainder.  It fails
whenever the remainder is shorter than five characters, and succeeds whenever
the remainder has at least five characters and its first six characters are
all hex digits — exact six-digit length is NOT required: a fifth-position
single digit is accepted as the blue component and anything beyond the sixth
character is ignored. -/
theorem c3_hex_to_rgb_length_behavior (s : String) :
    ((s.toList.dropWhile (fun c => c == '#')).length < 5 → hex_to_rgb s = none) ∧
    (5 ≤ (s.toList.dropWhile (fun c => c == '#')).length →
      (∀ c ∈ (s.toList.dropWhile (fun c => c == '#')).take 6, isHexDigitChar c = true) →
      (hex_to_rgb s).isSome) := by
  constructor
  · intro hlen
    have hdrop : (s.toList.dropWhile (fun c => c == '#')).drop 4 = [] :=
      List.drop_eq_nil_of_le (by omega)
    rw [hex_to_rgb]
    simp only [hdrop, List.take_nil]
    cases pyIntHex ((s.toList.dropWhile (fun c => c == '#')).take 2) <;>
      cases pyIntHex (((s.toList.dropWhile (fun c => c == '#')).drop 2).take 2) <;> rfl
  · intro hlen hall
    have h1 : (pyIntHex ((s.toList.dropWhile (fun c => c == '#')).take 2)).isSome := by
      apply pyIntHex_isSome_of_digits
      · apply List.length_pos.mp
        rw [List.length_take]
        omega
      · intro c hc
        apply hall
        have h26 : (s.toList.dropWhile (fun c => c == '#')).take 2 =
            ((s.toList.dropWhile (fun c => c == '#')).take 6).take 2 := by
          rw [List.take_take]
          norm_num
        rw [h26] at hc
        exact List.mem_of_mem_take hc
    have h2 : (pyIntHex (((s.toList.dropWhile (fun c => c == '#')).drop 2).take 2)).isSome := by
      apply pyIntHex_isSome_of_digits
      · apply List.length_pos.mp
        rw [List.length_take, List.length_drop]
        omega
      · intro c hc
        apply hall
        have h42 : ((s.toList.dropWhile (fun c => c == '#')).drop 2).take 2 =
            ((s.toList.dropWhile (fun c => c == '#')).take 4).drop 2 := by
          rw [List.drop_take]
        have h46 : (s.toList.dropWhile (fun c => c == '#')).take 4 =
            ((s.toList.dropWhile (fun c => c == '#')).take 6).take 4 := by
          rw [List.take_take]
          norm_num
        rw [h42, h46] at hc
        exact List.mem_of_mem_take (List.mem_of_mem_drop hc)
    have h3 : (pyIntHex (((s.toList.dropWhile (fun c => c == '#')).drop 4).take 2)).isSome := by
      apply pyIntHex_isSome_of_digits
      · apply List.length_pos.mp
        rw [List.length_take, List.length_drop]
        omega
      · intro c hc
        apply hall
        have h62 : ((s.toList.dropWhile (fun c => c == '#')).drop 4).take 2 =
            ((s.toList.dropWhile (fun c => c == '#')).take 6).drop 4 := by
          rw [List.drop_take]
        rw [h62] at hc
        exact List.mem_of_mem_drop hc
    obtain ⟨r, hr⟩ := Option.isSome_iff_exists.mp h1
    obtain ⟨g, hg⟩ := Option.isSome_iff_exists.mp h2
    obtain ⟨b, hb⟩ := Option.isSome_iff_exists.mp h3
    rw [hex_to_rgb]
    simp only [hr, hg, hb]
    rfl

/-- C3, witness: a five-hex-digit code is accepted, and a two-character
remainder is rejected, as the amended theorem states. -/
theorem c3_witness :
    (hex_to_rgb "#abcde").isSome ∧ hex_to_rgb "#ab" = none := by
  constructor
  · exact (c3_hex_to_rgb_length_behavior "#abcde").2 (by decide) (by decide)
  · exact (c3_hex_to_rgb_length_behavior "#ab").1 (by decide)

/-! ## Deduplication structure of the ranking loop -/

lemma entryRanked_name (rgb : RGB) (tx : Texture) (e : RankedEntry)
    (h : entryRanked rgb tx = some e) : e.name = tx.name := by
  cases txh : tx.hexcode with
  | none => simp [entryRanked, txh] at h
  | some hexes =>
    cases hexes with
    | nil => simp [entryRanked, txh] at h
    | cons h0 t0 =>
      cases hd : distancesOf rgb (h0 :: t0) with
      | none => simp [entryRanked, txh, hd] at h
      | some ds =>
        cases ds with
        | nil => simp [entryRanked, txh, hd] at h
        | cons d ds' =>
          simp only [entryRanked, txh, hd, Option.some.injEq] at h
          rw [← h]

lemma rankedLoop_eq_dedupSeen (rgb : RGB) :
    ∀ (cat : List Texture) (seen : List String),
      rankedLoop rgb cat seen = dedupSeen seen (cat.filterMap (entryRanked rgb)) := by
  intro cat
  induction cat with
  | nil => intro seen; rfl
  | cons tx rest ih =>
    intro seen
    cases he : entryRanked rgb tx with
    | none => simp only [rankedLoop, he, List.filterMap_cons, ih]
    | some e =>
      have hname := entryRanked_name rgb tx e he
      by_cases hseen : tx.name ∈ seen
      · simp only [rankedLoop, he, List.filterMap_cons, dedupSeen, hname,
          if_pos hseen, ih]
      · simp only [rankedLoop, he, List.filterMap_cons, dedupSeen, hname,
          if_neg hseen, ih]

lemma dedupSeen_mem_spec :
    ∀ (l : List RankedEntry) (seen : List String) (e : RankedEntry),
      e ∈ dedupSeen seen l →
        e.name ∉ seen ∧ l.find? (fun x => x.name == e.name) = some e := by
  intro l
  induction l with
  | nil => intro seen e he; exact absurd he (by simp [dedupSeen])
  | cons x t ih =>
    intro seen e he
    by_cases hx : x.name ∈ seen
    · rw [dedupSeen, if_pos hx] at he
      obtain ⟨hnotin, hfind⟩ := ih seen e he
      refine ⟨hnotin, ?_⟩
      have hne : ¬(x.name == e.name) = true := by
        intro hb
        exact hnotin (eq_of_beq hb ▸ hx)
      rw [List.find?_cons_of_neg t hne]
      exact hfind
    · rw [dedupSeen, if_neg hx] at he
      rcases List.mem_cons.mp he with rfl | ht
      · exact ⟨hx, List.find?_cons_of_pos t (by simp)⟩
      · obtain ⟨hnotin, hfind⟩ := ih (x.name :: seen) e ht
        have hnx : e.name ≠ x.name := fun hc => hnotin (by simp [hc])
        refine ⟨fun hc => hnotin (by simp [hc]), ?_⟩
        have hne : ¬(x.name == e.name) = true := by
          intro hb
          exact hnx (eq_of_beq hb).symm
        rw [List.find?_cons_of_neg t hne]
        exact hfind

lemma dedupSeen_names (l : List RankedEntry) :
    ∀ seen, (∀ n ∈ (dedupSeen seen l).map (fun e => e.name), n ∉ seen) ∧
      ((dedupSeen seen l).map (fun e => e.name)).Nodup := by
  induction l with
  | nil => intro seen; exact ⟨by simp [dedupSeen], by simp [dedupSeen]⟩
  | cons x t ih =>
    intro seen
    by_cases hx : x.name ∈ seen
    · rw [dedupSeen, if_pos hx]; exact ih seen
    · rw [dedupSeen, if_neg hx]
      obtain ⟨h1, h2⟩ := ih (x.name :: seen)
      constructor
      · intro n hn
        simp only [List.map_cons, List.mem_cons] at hn
        rcases hn with rfl | hn'
        · exact hx
        · intro hc
          exact (h1 n hn') (by simp [hc])
      · simp only [List.map_cons, List.nodup_cons]
        exact ⟨fun hc => (h1 x.name hc) (by simp), h2⟩

lemma dedupSeen_complete :
    ∀ (l : List RankedEntry) (seen : List String) (r : RankedEntry),
      r ∈ l → r.name ∉ seen → ∃ e ∈ dedupSeen seen l, e.name = r.name := by
  intro l
  induction l with
  | nil => intro seen r hr _; exact absurd hr (by simp)
  | cons x t ih =>
    intro seen r hr hns
    by_cases hx : x.name ∈ seen
    · rw [dedupSeen, if_pos hx]
      rcases List.mem_cons.mp hr with rfl | ht
      · exact absurd hx hns
      · exact ih seen r ht hns
    · rw [dedupSeen, if_neg hx]
      by_cases heq : r.name = x.name
      · exact ⟨x, by simp, heq.symm⟩
      · rcases List.mem_cons.mp hr with rfl | ht
        · exact absurd rfl heq
        · obtain ⟨e, he, hn⟩ := ih (x.name :: seen) r ht (by simp [heq, hns])
          exact ⟨e, by simp [he], hn⟩

lemma find_all_eq (t : String) (cat : List Texture) (rgb : RGB)
    (ht : hex_to_rgb t = some rgb) :
    find_all_laminates_sorted t cat =
      some (List.insertionSort rankRel (dedupSeen [] (cat.filterMap (entryRanked rgb)))) := by
  simp only [find_all_laminates_sorted, ht, rankedLoop_eq_dedupSeen]

/-! ## Minimum lemmas for the per-entry score -/

lemma listMin_le_init (ds : List Int) : ∀ d, listMin d ds ≤ d := by
  induction ds with
  | nil => intro d; exact le_refl d
  | cons x xs ih =>
    intro d
    have hstep : listMin d (x :: xs) = listMin (min d x) xs := rfl
    rw [hstep]
    exact le_trans (ih (min d x)) (min_le_left d x)

lemma listMin_mem (ds : List Int) : ∀ d, listMin d ds ∈ d :: ds := by
  induction ds with
  | nil => intro d; simp [listMin]
  | cons x xs ih =>
    intro d
    have hstep : listMin d (x :: xs) = listMin (min d x) xs := rfl
    rw [hstep]
    rcases List.mem_cons.mp (ih (min d x)) with hh | ht
    · rcases min_choice d x with hmin | hmin
      · rw [hh, hmin]; simp
      · rw [hh, hmin]; simp
    · simp [ht]

lemma listMin_le (ds : List Int) : ∀ d, ∀ y ∈ d :: ds, listMin d ds ≤ y := by
  induction ds with
  | nil =>
    intro d y hy
    simp only [List.mem_cons, List.not_mem_nil, or_false] at hy
    subst hy
    exact le_refl y
  | cons x xs ih =>
    intro d y hy
    have hstep : listMin d (x :: xs) = listMin (min d x) xs := rfl
    rw [hstep]
    rcases List.mem_cons.mp hy with rfl | hy'
    · exact le_trans (listMin_le_init xs (min y x)) (min_le_left y x)
    · rcases List.mem_cons.mp hy' with rfl | hy''
      · exact le_trans (listMin_le_init xs (min d y)) (min_le_right d y)
      · exact ih (min d x) y (by simp [hy''])

/-! ## Stability of the sort -/

lemma insertionSort_filter_eq (l : List RankedEntry) (d : Int) :
    (List.insertionSort rankRel l).filter (fun e => e.distance == d) =
      l.filter (fun e => e.distance == d) := by
  have hsub : List.Sublist (l.filter (fun e => e.distance == d))
      (List.insertionSort rankRel l) := by
    apply List.sublist_insertionSort
    · apply List.pairwise_of_forall_mem_list
      intro a ha b hb
      have hda : a.distance = d := eq_of_beq (List.mem_filter.mp ha).2
      have hdb : b.distance = d := eq_of_beq (List.mem_filter.mp hb).2
      show rankRel a b
      rw [rankRel, hda, hdb]
    · exact List.filter_sublist l
  have hperm : List.Perm ((List.insertionSort rankRel l).filter (fun e => e.distance == d))
      (l.filter (fun e => e.distance == d)) :=
    (List.perm_insertionSort rankRel l).filter _
  have hff : (l.filter (fun e => e.distance == d)).filter (fun e => e.distance == d) =
      l.filter (fun e => e.distance == d) := by
    rw [List.filter_filter]
    exact List.filter_congr (fun a _ => Bool.and_self _)
  have hsub2 : List.Sublist (l.filter (fun e => e.distance == d))
      ((List.insertionSort rankRel l).filter (fun e => e.distance == d)) := by
    have hs := hsub.filter (fun e => e.distance == d)
    rwa [hff] at hs
  exact (hsub2.eq_of_length hperm.length_eq.symm).symm

/-! ## Claims C5, C6, C7 -/

/-- C5, counterexample.  The entry's hex-color list is
`["#040000", "000000"]` and the target is `#000000`.  The second color of the
entry lies at Euclidean distance 0 from the target, but because it lacks the
`#` marker it is never considered: the emitted distance is 16 (squared; i.e.
Euclidean distance 4 to `#040000`), which is NOT the minimum distance to
*any* of the entry's hex colors — refuting the claim as stated. -/
theorem c5_counterexample :
    find_all_laminates_sorted "#000000" [⟨"1", "A", "S", some ["#040000", "000000"]⟩] =
      some [⟨"A", "S", linkOf "1", 16⟩] ∧
    hex_to_rgb "000000" = some (0, 0, 0) ∧
    hex_to_rgb "#000000" = some (0, 0, 0) ∧
    color_distance_sq (0, 0, 0) (0, 0, 0) = 0 ∧
    ¬(16 : Int) ≤ 0 := by
  exact ⟨rfl, rfl, rfl, rfl, by norm_num⟩

/-- C5 (amended): each RankedEntry's distance is the minimum Euclidean RGB
distance between the target color and the entry's hex colors **that begin
with `#`** (not all of its hex colors): some `#`-code attains it and no
`#`-code beats it.  (Distances are represented squared; see file header.) -/
theorem c5_distance_is_min_over_hash_codes (t : String) (cat : List Texture)
    (rgb : RGB) (ranking : List RankedEntry)
    (ht : hex_to_rgb t = some rgb)
    (hr : find_all_laminates_sorted t cat = some ranking) :
    ∀ e ∈ ranking, ∃ tx ∈ cat, tx.name = e.name ∧ ∃ hexes, tx.hexcode = some hexes ∧
      (∃ h ∈ hexes, startsWithHash h = true ∧
        ∃ c, hex_to_rgb h = some c ∧ e.distance = color_distance_sq rgb c) ∧
      (∀ h ∈ hexes, startsWithHash h = true →
        ∃ c, hex_to_rgb h = some c ∧ e.distance ≤ color_distance_sq rgb c) := by
  intro e he
  rw [find_all_eq t cat rgb ht] at hr
  have hrk : ranking =
      List.insertionSort rankRel (dedupSeen [] (cat.filterMap (entryRanked rgb))) := by
    injection hr.symm
  subst hrk
  have heL : e ∈ dedupSeen [] (cat.filterMap (entryRanked rgb)) :=
    (List.perm_insertionSort rankRel _).mem_iff.mp he
  have heF : e ∈ cat.filterMap (entryRanked rgb) :=
    List.mem_of_find?_eq_some (dedupSeen_mem_spec _ [] e heL).2
  obtain ⟨tx, htx, hee⟩ := List.mem_filterMap.mp heF
  refine ⟨tx, htx, (entryRanked_name rgb tx e hee).symm, ?_⟩
  cases txh : tx.hexcode with
  | none => simp [entryRanked, txh] at hee
  | some hexes =>
    cases hexes with
    | nil => simp [entryRanked, txh] at hee
    | cons h0 t0 =>
      cases hd : distancesOf rgb (h0 :: t0) with
      | none => simp [entryRanked, txh, hd] at hee
      | some ds =>
        cases ds with
        | nil => simp [entryRanked, txh, hd] at hee
        | cons d0 ds' =>
          simp only [entryRanked, txh, hd, Option.some.injEq] at hee
          have hdist : e.distance = listMin d0 ds' := by rw [← hee]
          obtain ⟨hforward, hbackward⟩ := distancesOf_some_spec rgb (h0 :: t0) (d0 :: ds') hd
          refine ⟨h0 :: t0, rfl, ?_, ?_⟩
          · obtain ⟨h, hmem, hsh, c, hc, hx⟩ :=
              hbackward (listMin d0 ds') (listMin_mem ds' d0)
            exact ⟨h, hmem, hsh, c, hc, by rw [hdist, hx]⟩
          · intro h hmem hsh
            obtain ⟨c, hc, hmemd⟩ := hforward h hmem hsh
            exact ⟨c, hc, by rw [hdist]; exact listMin_le ds' d0 _ hmemd⟩

/-- C5, witness for the amended theorem: for the counterexample catalog the
single ranked entry's distance 16 is attained by `"#040000"` and is minimal
among the `#`-prefixed codes. -/
theorem c5_witness :
    ∃ tx ∈ [(⟨"1", "A", "S", some ["#040000", "000000"]⟩ : Texture)],
      tx.name = (⟨"A", "S", linkOf "1", 16⟩ : RankedEntry).name ∧
      ∃ hexes, tx.hexcode = some hexes ∧
      (∃ h ∈ hexes, startsWithHash h = true ∧
        ∃ c, hex_to_rgb h = some c ∧
          (⟨"A", "S", linkOf "1", 16⟩ : RankedEntry).distance = color_distance_sq (0, 0, 0) c) ∧
      (∀ h ∈ hexes, startsWithHash h = true →
        ∃ c, hex_to_rgb h = some c ∧
          (⟨"A", "S", linkOf "1", 16⟩ : RankedEntry).distance ≤ color_distance_sq (0, 0, 0) c) := by
  exact c5_distance_is_min_over_hash_codes "#000000"
    [⟨"1", "A", "S", some ["#040000", "000000"]⟩] (0, 0, 0)
    [⟨"A", "S", linkOf "1", 16⟩] rfl rfl ⟨"A", "S", linkOf "1", 16⟩ (by simp)

/-- C6 (confirmed): the ranking returned by `find_all_laminates_sorted` is
sorted ascending by distance, and it is stable: for every distance value the
equal-distance entries appear in exactly the order in which the catalog loop
(`rankedLoop`, which scans the catalog in its original order) produced them.
(Distances are represented squared; `sqrt` is strictly monotone on these
values, so this is the ordering the source's float sort produces.) -/
theorem c6_ranking_sorted_and_stable (t : String) (cat : List Texture)
    (rgb : RGB) (ranking : List RankedEntry)
    (ht : hex_to_rgb t = some rgb)
    (hr : find_all_laminates_sorted t cat = some ranking) :
    (∀ (i j : Nat) (hj : j < ranking.length) (hij : i < j),
      (ranking.get ⟨i, Nat.lt_trans hij hj⟩).distance ≤
        (ranking.get ⟨j, hj⟩).distance) ∧
    (∀ d : Int, ranking.filter (fun e => e.distance == d) =
      (rankedLoop rgb cat []).filter (fun e => e.distance == d)) := by
  have hrk : ranking = List.insertionSort rankRel (rankedLoop rgb cat []) := by
    rw [find_all_laminates_sorted, ht] at hr
    injection hr.symm
  subst hrk
  constructor
  · intro i j hj hij
    exact List.Sorted.rel_get_of_lt (List.sorted_insertionSort rankRel _) hij
  · intro d
    exact insertionSort_filter_eq _ d

/-- C6, witness: the spec's worked example (§8) — catalog A,B,A with target
`#000000` — yields the ranking `[B at 0, A at 256]`, which the theorem shows
ordered at indices 0,1 and stable at distance 0. -/
theorem c6_witness :
    (([⟨"B", "S", linkOf "2", 0⟩, ⟨"A", "S", linkOf "1", 256⟩] :
        List RankedEntry).get ⟨0, by norm_num⟩).distance ≤
      (([⟨"B", "S", linkOf "2", 0⟩, ⟨"A", "S", linkOf "1", 256⟩] :
        List RankedEntry).get ⟨1, by norm_num⟩).distance ∧
    ([⟨"B", "S", linkOf "2", 0⟩, ⟨"A", "S", linkOf "1", 256⟩] :
        List RankedEntry).filter (fun e => e.distance == (0 : Int)) =
      (rankedLoop (0, 0, 0)
        [⟨"1", "A", "S", some ["#000010"]⟩, ⟨"2", "B", "S", some ["#000000"]⟩,
         ⟨"3", "A", "S", some ["#FFFFFF"]⟩] []).filter (fun e => e.distance == (0 : Int)) := by
  have hc := c6_ranking_sorted_and_stable "#000000"
    [⟨"1", "A", "S", some ["#000010"]⟩, ⟨"2", "B", "S", some ["#000000"]⟩,
     ⟨"3", "A", "S", some ["#FFFFFF"]⟩] (0, 0, 0)
    [⟨"B", "S", linkOf "2", 0⟩, ⟨"A", "S", linkOf "1", 256⟩] rfl rfl
  exact ⟨hc.1 0 1 (by norm_num) (by norm_num), hc.2 0⟩

/-- C7 (confirmed): the ranking never contains two entries with the same
name; each emitted entry is exactly the first catalog entry (in catalog
order) with its name that survives the hex-validity filters — later
same-name survivors are dropped regardless of their own distance — and every
surviving catalog entry's name does appear. -/
theorem c7_dedup_first_occurrence_wins (t : String) (cat : List Texture)
    (rgb : RGB) (ranking : List RankedEntry)
    (ht : hex_to_rgb t = some rgb)
    (hr : find_all_laminates_sorted t cat = some ranking) :
    ((ranking.map (fun e => e.name)).Nodup) ∧
    (∀ e ∈ ranking,
      (cat.filterMap (entryRanked rgb)).find? (fun x => x.name == e.name) = some e) ∧
    (∀ tx ∈ cat, ∀ r, entryRanked rgb tx = some r →
      ∃ e ∈ ranking, e.name = r.name) := by
  rw [find_all_eq t cat rgb ht] at hr
  have hrk : ranking =
      List.insertionSort rankRel (dedupSeen [] (cat.filterMap (entryRanked rgb))) := by
    injection hr.symm
  subst hrk
  have hperm : List.Perm
      (List.insertionSort rankRel (dedupSeen [] (cat.filterMap (entryRanked rgb))))
      (dedupSeen [] (cat.filterMap (entryRanked rgb))) :=
    List.perm_insertionSort rankRel _
  refine ⟨?_, ?_, ?_⟩
  · rw [(hperm.map (fun e => e.name)).nodup_iff]
    exact (dedupSeen_names _ []).2
  · intro e he
    exact (dedupSeen_mem_spec _ [] e (hperm.mem_iff.mp he)).2
  · intro tx htx r hrr
    obtain ⟨e, he, hn⟩ := dedupSeen_complete (cat.filterMap (entryRanked rgb)) [] r
      (List.mem_filterMap.mpr ⟨tx, htx, hrr⟩) (by simp)
    exact ⟨e, hperm.mem_iff.mpr he, hn⟩

/-- C7, witness: the spec's duplicate-name example — the second "A" entry
(closer to nothing, farther than the first) is dropped; names `[B, A]` are
distinct, and the emitted A is the catalog's first surviving A. -/
theorem c7_witness :
    (([⟨"B", "S", linkOf "2", 0⟩, ⟨"A", "S", linkOf "1", 256⟩] :
        List RankedEntry).map (fun e => e.name)).Nodup ∧
    (([⟨"1", "A", "S", some ["#000010"]⟩, ⟨"2", "B", "S", some ["#000000"]⟩,
        ⟨"3", "A", "S", some ["#FFFFFF"]⟩] :
          List Texture).filterMap (entryRanked (0, 0, 0))).find?
        (fun x => x.name == "A") = some ⟨"A", "S", linkOf "1", 256⟩ := by
  have hc := c7_dedup_first_occurrence_wins "#000000"
    [⟨"1", "A", "S", some ["#000010"]⟩, ⟨"2", "B", "S", some ["#000000"]⟩,
     ⟨"3", "A", "S", some ["#FFFFFF"]⟩] (0, 0, 0)
    [⟨"B", "S", linkOf "2", 0⟩, ⟨"A", "S", linkOf "1", 256⟩] rfl rfl
  exact ⟨hc.1, hc.2.1 ⟨"A", "S", linkOf "1", 256⟩ (by simp)⟩

/-! ## Pagination lemmas -/

lemma lookupKey_setKey_self (k : String) (v : PageData) :
    ∀ s : Shown, lookupKey k (setKey k v s) = some v := by
  intro s
  induction s with
  | nil => simp [setKey, lookupKey]
  | cons kv rest ih =>
    obtain ⟨k0, v0⟩ := kv
    by_cases hk : (k0 == k) = true
    · simp [setKey, lookupKey, hk]
    · simp only [setKey, hk, Bool.false_eq_true, if_false, lookupKey]
      exact ih

lemma lookupKey_setKey_other (k k' : String) (hne : k' ≠ k) (v : PageData) :
    ∀ s : Shown, lookupKey k' (setKey k v s) = lookupKey k' s := by
  have hkk : (k == k') = false := by
    cases hb : k == k'
    · rfl
    · exact absurd (eq_of_beq hb).symm hne
  intro s
  induction s with
  | nil => simp [setKey, lookupKey, hkk]
  | cons kv rest ih =>
    obtain ⟨k0, v0⟩ := kv
    by_cases hk : (k0 == k) = true
    · have hk0 : (k0 == k') = false := by
        rw [eq_of_beq hk]
        exact hkk
      simp [setKey, lookupKey, hk, hk0, hkk]
    · simp only [setKey, hk, Bool.false_eq_true, if_false, lookupKey]
      by_cases hk0 : (k0 == k') = true
      · simp [hk0]
      · simp only [hk0, Bool.false_eq_true, if_false]
        exact ih

lemma setKey_setKey (k : String) (v v' : PageData) :
    ∀ s : Shown, setKey k v' (setKey k v s) = setKey k v' s := by
  intro s
  induction s with
  | nil => simp [setKey]
  | cons kv rest ih =>
    obtain ⟨k0, v0⟩ := kv
    by_cases hk : (k0 == k) = true
    · simp [setKey, hk]
    · simp only [setKey, hk, Bool.false_eq_true, if_false]
      exact congrArg (fun t => (k0, v0) :: t) ih

lemma get_next_batch_present (k : String) (cat : List Texture) (bs : Nat)
    (s : Shown) (i : Nat) (l : List RankedEntry)
    (hp : lookupKey k s = some ⟨i, l⟩) :
    get_next_batch k cat bs s =
      some (setKey k ⟨i + bs, l⟩ s, (l.drop i).take bs) := by
  simp only [get_next_batch, hp]

lemma get_next_batch_fresh (k : String) (cat : List Texture) (bs : Nat)
    (s : Shown) (l : List RankedEntry)
    (hfresh : lookupKey k s = none)
    (hl : find_all_laminates_sorted k cat = some l) :
    get_next_batch k cat bs s = some (setKey k ⟨bs, l⟩ s, l.take bs) := by
  simp only [get_next_batch, hfresh, hl]

lemma iterBatches_succ_of_batch (key : String) (cat : List Texture) (bs : Nat)
    (s : Shown) (n : Nat) (s0 : Shown) (bss : List (List RankedEntry))
    (s' : Shown) (b : List RankedEntry)
    (h : iterBatches key cat bs s n = some (s0, bss))
    (hb : get_next_batch key cat bs s0 = some (s', b)) :
    iterBatches key cat bs s (n + 1) = some (s', bss ++ [b]) := by
  simp only [iterBatches, h, hb]

lemma iterBatches_spec (key : String) (cat : List Texture) (s : Shown)
    (l : List RankedEntry)
    (hfresh : lookupKey key s = none)
    (hl : find_all_laminates_sorted key cat = some l) :
    ∀ n, iterBatches key cat 4 s (n + 1) =
      some (setKey key ⟨4 * (n + 1), l⟩ s,
        (List.range (n + 1)).map (fun i => (l.drop (4 * i)).take 4)) := by
  intro n
  induction n with
  | zero =>
    have h0 : iterBatches key cat 4 s 0 = some (s, []) := rfl
    have hb := get_next_batch_fresh key cat 4 s l hfresh hl
    rw [iterBatches_succ_of_batch key cat 4 s 0 s [] _ _ h0 hb]
    have hr1 : List.range 1 = [0] := rfl
    rw [hr1]
    simp
  | succ m ih =>
    have hb := get_next_batch_present key cat 4
      (setKey key ⟨4 * (m + 1), l⟩ s) (4 * (m + 1)) l (lookupKey_setKey_self key _ s)
    rw [iterBatches_succ_of_batch key cat 4 s (m + 1) _ _ _ _ ih hb, setKey_setKey]
    have h4 : 4 * (m + 1) + 4 = 4 * (m + 1 + 1) := by ring
    rw [h4]
    conv_rhs => rw [List.range_succ, List.map_append]
    simp

lemma chunks4_flatten_aux :
    ∀ (k : Nat) (l : List RankedEntry), l.length ≤ 4 * k →
      ((List.range k).map (fun i => (l.drop (4 * i)).take 4)).flatten = l := by
  intro k
  induction k with
  | zero =>
    intro l hl
    have hl0 : l = [] := by
      cases l with
      | nil => rfl
      | cons x t => simp at hl
    simp [hl0]
  | succ m ih =>
    intro l hl
    rw [List.range_succ_eq_map]
    simp only [List.map_cons, List.map_map, List.flatten_cons, Nat.mul_zero,
      List.drop_zero]
    have hmapeq : (List.range m).map
          ((fun i => (l.drop (4 * i)).take 4) ∘ Nat.succ) =
        (List.range m).map (fun i => (((l.drop 4).drop (4 * i))).take 4) := by
      congr 1
      funext i
      show (l.drop (4 * (i + 1))).take 4 = ((l.drop 4).drop (4 * i)).take 4
      rw [List.drop_drop]
      have h4 : 4 + 4 * i = 4 * (i + 1) := by ring
      rw [h4]
    rw [hmapeq, ih (l.drop 4) (by rw [List.length_drop]; omega)]
    exact List.take_append_drop 4 l

lemma chunks4_flatten (l : List RankedEntry) :
    ((List.range ((l.length + 3) / 4)).map
      (fun i => (l.drop (4 * i)).take 4)).flatten = l := by
  apply chunks4_flatten_aux
  omega

/-! ## Claims C4, C9, C10 -/

/-- C4 (confirmed): from a fresh PageState for a parseable color key whose
ranking is `l`, successive `get_next_batch` calls with batch size 4 never
error and return exactly the consecutive 4-slices of `l` (hence pairwise
non-overlapping): each of the first `⌈|l|/4⌉` batches is non-empty, their
concatenation in order is the full ranking, and every later batch is empty
(the cursor keeps advancing past the end and never wraps). -/
theorem c4_pagination_exhaustive (key : String) (cat : List Texture)
    (s : Shown) (l : List RankedEntry)
    (hfresh : lookupKey key s = none)
    (hl : find_all_laminates_sorted key cat = some l) :
    (∀ n : Nat, ∃ s', iterBatches key cat 4 s n =
      some (s', (List.range n).map (fun i => (l.drop (4 * i)).take 4))) ∧
    (∀ i, i < (l.length + 3) / 4 → (l.drop (4 * i)).take 4 ≠ []) ∧
    (((List.range ((l.length + 3) / 4)).map
      (fun i => (l.drop (4 * i)).take 4)).flatten = l) ∧
    (∀ i, (l.length + 3) / 4 ≤ i → (l.drop (4 * i)).take 4 = []) := by
  refine ⟨?_, ?_, chunks4_flatten l, ?_⟩
  · intro n
    cases n with
    | zero => exact ⟨s, by simp [iterBatches]⟩
    | succ m => exact ⟨_, iterBatches_spec key cat s l hfresh hl m⟩
  · intro i hi
    apply List.length_pos.mp
    rw [List.length_take, List.length_drop]
    omega
  · intro i hi
    have hle : l.length ≤ 4 * i := by omega
    rw [List.drop_eq_nil_of_le hle]
    rfl

/-- C4, witness: a two-entry ranking under batch size 4 gives one non-empty
batch (the whole ranking) and then an empty one; two iterated calls
succeed. -/
theorem c4_witness :
    (∃ s', iterBatches "#000000"
        [⟨"1", "A", "S", some ["#000000"]⟩, ⟨"2", "B", "S", some ["#000001"]⟩] 4 [] 2 =
      some (s', (List.range 2).map (fun i =>
        (([⟨"A", "S", linkOf "1", 0⟩, ⟨"B", "S", linkOf "2", 1⟩] :
          List RankedEntry).drop (4 * i)).take 4))) ∧
    ((([⟨"A", "S", linkOf "1", 0⟩, ⟨"B", "S", linkOf "2", 1⟩] :
      List RankedEntry).drop (4 * 0)).take 4 ≠ []) ∧
    ((([⟨"A", "S", linkOf "1", 0⟩, ⟨"B", "S", linkOf "2", 1⟩] :
      List RankedEntry).drop (4 * 1)).take 4 = []) := by
  have hc := c4_pagination_exhaustive "#000000"
    [⟨"1", "A", "S", some ["#000000"]⟩, ⟨"2", "B", "S", some ["#000001"]⟩] []
    [⟨"A", "S", linkOf "1", 0⟩, ⟨"B", "S", linkOf "2", 1⟩] rfl rfl
  exact ⟨hc.1 2, hc.2.1 0 (by norm_num), hc.2.2.2 1 (by norm_num)⟩

/-- C9, counterexample.  Calling `get_next_batch` with `"#aabbcc"` on an
empty dict and then with `"#AABBCC"` does NOT read and advance one shared
cursor: the second call returns the very same (sole) ranked entry again —
were the cursor shared, the one-entry ranking would already be exhausted and
the second call would return `[]` — and the final dict holds two independent
cursors, one per casing. -/
theorem c9_counterexample :
    get_next_batch "#aabbcc" [⟨"1", "A", "S", some ["#AABBCC"]⟩] 4 [] =
      some ([("#aabbcc", ⟨4, [⟨"A", "S", linkOf "1", 0⟩]⟩)],
        [⟨"A", "S", linkOf "1", 0⟩]) ∧
    get_next_batch "#AABBCC" [⟨"1", "A", "S", some ["#AABBCC"]⟩] 4
        [("#aabbcc", ⟨4, [⟨"A", "S", linkOf "1", 0⟩]⟩)] =
      some ([("#aabbcc", ⟨4, [⟨"A", "S", linkOf "1", 0⟩]⟩),
             ("#AABBCC", ⟨4, [⟨"A", "S", linkOf "1", 0⟩]⟩)],
        [⟨"A", "S", linkOf "1", 0⟩]) ∧
    ([⟨"A", "S", linkOf "1", 0⟩] : List RankedEntry) ≠ [] := by
  exact ⟨rfl, rfl, by simp⟩

/-- C9 (amended): pagination state is keyed by the raw, case-sensitive hex
string with no normalization: a `get_next_batch` call whose exact key string
is absent from the dict — even when another casing of the same color is
present — creates an independent fresh cursor for that exact string starting
at index 0 (returning the head of the ranking), and leaves every other key's
cursor, including the other casing's, untouched. -/
theorem c9_raw_key_independent_cursors (k : String) (cat : List Texture)
    (bs : Nat) (s : Shown) (l : List RankedEntry)
    (hfresh : lookupKey k s = none)
    (hl : find_all_laminates_sorted k cat = some l) :
    get_next_batch k cat bs s = some (setKey k ⟨bs, l⟩ s, l.take bs) ∧
    lookupKey k (setKey k ⟨bs, l⟩ s) = some ⟨bs, l⟩ ∧
    (∀ k', k' ≠ k → lookupKey k' (setKey k ⟨bs, l⟩ s) = lookupKey k' s) := by
  refine ⟨get_next_batch_fresh k cat bs s l hfresh hl,
    lookupKey_setKey_self k _ s, ?_⟩
  intro k' hne
  exact lookupKey_setKey_other k k' hne _ s

/-- C9, witness: with the lowercase casing already paginated (index 4), the
uppercase key still gets its own fresh cursor and the lowercase cursor is
untouched. -/
theorem c9_witness :
    get_next_batch "#AABBCC" [⟨"1", "A", "S", some ["#AABBCC"]⟩] 4
        [("#aabbcc", ⟨4, [⟨"A", "S", linkOf "1", 0⟩]⟩)] =
      some (setKey "#AABBCC" ⟨4, [⟨"A", "S", linkOf "1", 0⟩]⟩
          [("#aabbcc", ⟨4, [⟨"A", "S", linkOf "1", 0⟩]⟩)],
        ([⟨"A", "S", linkOf "1", 0⟩] : List RankedEntry).take 4) ∧
    lookupKey "#aabbcc" (setKey "#AABBCC" ⟨4, [⟨"A", "S", linkOf "1", 0⟩]⟩
        [("#aabbcc", ⟨4, [⟨"A", "S", linkOf "1", 0⟩]⟩)]) =
      lookupKey "#aabbcc" [("#aabbcc", ⟨4, [⟨"A", "S", linkOf "1", 0⟩]⟩)] := by
  have hc := c9_raw_key_independent_cursors "#AABBCC"
    [⟨"1", "A", "S", some ["#AABBCC"]⟩] 4
    [("#aabbcc", ⟨4, [⟨"A", "S", linkOf "1", 0⟩]⟩)]
    [⟨"A", "S", linkOf "1", 0⟩] rfl rfl
  exact ⟨hc.1, hc.2.2 "#aabbcc" (by decide)⟩

/-- C10 (confirmed): when the color key is already present with stored state
`{index := i, sorted := l}`, `get_next_batch` returns the slice
`l[i : i+batch]`, stores back the same ranking `l` with only the index
advanced, leaves every other key's entry unchanged, and never recomputes the
ranking (its result does not depend on the catalog argument at all). -/
theorem c10_nextBatch_frame (k : String) (cat cat' : List Texture) (bs : Nat)
    (s : Shown) (i : Nat) (l : List RankedEntry)
    (hp : lookupKey k s = some ⟨i, l⟩) :
    get_next_batch k cat bs s =
      some (setKey k ⟨i + bs, l⟩ s, (l.drop i).take bs) ∧
    get_next_batch k cat bs s = get_next_batch k cat' bs s ∧
    lookupKey k (setKey k ⟨i + bs, l⟩ s) = some ⟨i + bs, l⟩ ∧
    (∀ k', k' ≠ k → lookupKey k' (setKey k ⟨i + bs, l⟩ s) = lookupKey k' s) := by
  refine ⟨get_next_batch_present k cat bs s i l hp, ?_,
    lookupKey_setKey_self k _ s, ?_⟩
  · rw [get_next_batch_present k cat bs s i l hp,
      get_next_batch_present k cat' bs s i l hp]
  · intro k' hne
    exact lookupKey_setKey_other k k' hne _ s

/-- C10, witness: advancing the `"#AABBCC"` cursor (with two different
catalog arguments) leaves the `"#000000"` entry untouched and keeps the
stored ranking. -/
theorem c10_witness :
    get_next_batch "#AABBCC" [] 4
        [("#AABBCC", ⟨0, [⟨"A", "S", linkOf "1", 0⟩]⟩), ("#000000", ⟨4, []⟩)] =
      get_next_batch "#AABBCC" [⟨"9", "Z", "S", some ["#111111"]⟩] 4
        [("#AABBCC", ⟨0, [⟨"A", "S", linkOf "1", 0⟩]⟩), ("#000000", ⟨4, []⟩)] ∧
    lookupKey "#000000" (setKey "#AABBCC" ⟨0 + 4, [⟨"A", "S", linkOf "1", 0⟩]⟩
        [("#AABBCC", ⟨0, [⟨"A", "S", linkOf "1", 0⟩]⟩), ("#000000", ⟨4, []⟩)]) =
      lookupKey "#000000"
        [("#AABBCC", ⟨0, [⟨"A", "S", linkOf "1", 0⟩]⟩), ("#000000", ⟨4, []⟩)] := by
  have hc := c10_nextBatch_frame "#AABBCC" [] [⟨"9", "Z", "S", some ["#111111"]⟩] 4
    [("#AABBCC", ⟨0, [⟨"A", "S", linkOf "1", 0⟩]⟩), ("#000000", ⟨4, []⟩)]
    0 [⟨"A", "S", linkOf "1", 0⟩] rfl
  exact ⟨hc.2.1, hc.2.2.2 "#000000" (by decide)⟩

/-! ## Conversation-turn lemmas -/

lemma modified_laminate_agent_continuation (prompt : String) (cat : List Texture)
    (reply : AgentReply) (st : TurnState) (h : String) (i : Nat)
    (l : List RankedEntry)
    (hm : (lowerContains prompt "other option" || lowerContains prompt "more") = true)
    (hlast : st.last_hexcode = some h) (hne : h ≠ "")
    (hp : lookupKey h st.shown_laminates = some ⟨i, l⟩) :
    modified_laminate_agent prompt (some cat) reply st =
      ({ chat_history := st.chat_history ++
           [(true, prompt), (false, "Showing more options for color " ++ h ++ ".")],
         last_hexcode := st.last_hexcode,
         shown_laminates := setKey h ⟨i + 4, l⟩ st.shown_laminates },
       some ((l.drop i).take 4)) := by
  have hbne : (h != "") = true := bne_iff_ne.mpr hne
  have hbatch := get_next_batch_present h cat 4 st.shown_laminates i l hp
  simp only [modified_laminate_agent, hlast, hbne, hm, Bool.and_self, if_true, hbatch]

/-- C8 (confirmed): when the prompt case-insensitively contains
"other option" or "more" and `last_hexcode` is set (to a non-empty string,
which is what Python's truthiness test at Client.py:96 requires) and that
color has an existing PageState, the turn's outcome does not depend on the
agent collaborator at all, the served batch is the stored ranking's slice
starting at the stored index (no restart at 0), and the cursor advances by
the batch size 4. -/
theorem c8_continuation_skips_agent (prompt : String) (cat : List Texture)
    (reply reply' : AgentReply) (st : TurnState) (h : String) (i : Nat)
    (l : List RankedEntry)
    (hm : (lowerContains prompt "other option" || lowerContains prompt "more") = true)
    (hlast : st.last_hexcode = some h) (hne : h ≠ "")
    (hp : lookupKey h st.shown_laminates = some ⟨i, l⟩) :
    modified_laminate_agent prompt (some cat) reply st =
      modified_laminate_agent prompt (some cat) reply' st ∧
    (modified_laminate_agent prompt (some cat) reply st).2 =
      some ((l.drop i).take 4) ∧
    lookupKey h (modified_laminate_agent prompt (some cat) reply st).1.shown_laminates =
      some ⟨i + 4, l⟩ := by
  have h1 := modified_laminate_agent_continuation prompt cat reply st h i l hm hlast hne hp
  have h2 := modified_laminate_agent_continuation prompt cat reply' st h i l hm hlast hne hp
  refine ⟨h1.trans h2.symm, ?_, ?_⟩
  · rw [h1]
  · rw [h1]
    exact lookupKey_setKey_self h _ st.shown_laminates

/-- C8, witness: the spec's continuation example — prompt
"show me more options" with `last_hexcode = "#AABBCC"` and an existing
cursor at index 0 over an empty ranking — gives identical outcomes for two
different agent replies, serves the stored slice, and advances the cursor. -/
theorem c8_witness :
    modified_laminate_agent "show me more options" (some [])
        AgentReply.crash ⟨[], some "#AABBCC", [("#AABBCC", ⟨0, []⟩)]⟩ =
      modified_laminate_agent "show me more options" (some [])
        (AgentReply.jsonObj (some "#123456") (some "ignored"))
        ⟨[], some "#AABBCC", [("#AABBCC", ⟨0, []⟩)]⟩ ∧
    (modified_laminate_agent "show me more options" (some [])
        AgentReply.crash ⟨[], some "#AABBCC", [("#AABBCC", ⟨0, []⟩)]⟩).2 =
      some ((([] : List RankedEntry).drop 0).take 4) ∧
    lookupKey "#AABBCC"
        (modified_laminate_agent "show me more options" (some [])
          AgentReply.crash ⟨[], some "#AABBCC", [("#AABBCC", ⟨0, []⟩)]⟩).1.shown_laminates =
      some ⟨0 + 4, []⟩ := by
  exact c8_continuation_skips_agent "show me more options" []
    AgentReply.crash (AgentReply.jsonObj (some "#123456") (some "ignored"))
    ⟨[], some "#AABBCC", [("#AABBCC", ⟨0, []⟩)]⟩ "#AABBCC" 0 []
    (by decide) rfl (by decide) rfl

/-- C2, code-bug exhibit.  The claim (and the spec, twice) requires a failed
turn to leave the whole session state unchanged, and the source's own
`if not hexcode: st.error(...); return None` check (Client.py:146-148) shows
the missing-hexcode turn is meant to fail cleanly; but Client.py:140 assigns
`st.session_state["last_hexcode"] = hexcode` before that check runs.  Here
the agent's JSON parses but has no `hexcode` field: the turn fails (returns
`none`), `chat_history` and `shown_laminates` are indeed untouched, yet
`last_hexcode` has been overwritten from `some "#AABBCC"` to `none`. -/
theorem c2_failed_turn_overwrites_last_hexcode :
    modified_laminate_agent "red sofa" (some [])
        (AgentReply.jsonObj none (some "a muted tone"))
        ⟨[], some "#AABBCC", [("#AABBCC", ⟨4, []⟩)]⟩ =
      (⟨[], none, [("#AABBCC", ⟨4, []⟩)]⟩, none) ∧
    some "#AABBCC" ≠ (none : Option String) := by
  exact ⟨rfl, by simp⟩

end LaminateBot
